import Mathlib

/-!
Verification of the OpenAudible/Libation to AudioBookShelf synchronization
pipeline.  Python strings are modelled as `List Char`; each definition is a
shallow embedding of the corresponding function in the repository
(`openaudible_to_ab.py`, `modules/utils.py`, `modules/audio_bookshelf.py`).
-/

namespace OA2ABS

/-! ## Python character and string primitives -/

/-- Model of the ASCII digit test used when parsing (`\d` in `strptime`). -/
def isDig (c : Char) : Bool := 48 ≤ c.toNat && c.toNat ≤ 57

/-- Numeric value of a digit character. -/
def dval (c : Char) : Nat := c.toNat - 48

/-- Decimal digit character of `n % 10` (used to render zero-padded fields,
mirroring `strftime` output). -/
def dchar (n : Nat) : Char :=
  match n % 10 with
  | 0 => '0' | 1 => '1' | 2 => '2' | 3 => '3' | 4 => '4'
  | 5 => '5' | 6 => '6' | 7 => '7' | 8 => '8' | _ => '9'

/-- Model of Python `str.isspace` restricted to the ASCII whitespace
characters Python strips by default. -/
def pyIsSpace (c : Char) : Bool :=
  c = ' ' || c = '\t' || c = '\n' || c = '\x0d' || c = '\x0b' || c = '\x0c'

/-- Python `s.rstrip()`. -/
def pyStripR (l : List Char) : List Char :=
  ((l.reverse).dropWhile pyIsSpace).reverse

/-- Python `s.lstrip()`. -/
def pyStripL (l : List Char) : List Char := l.dropWhile pyIsSpace

/-- Python `s.strip()`. -/
def pyStrip (l : List Char) : List Char := pyStripR (pyStripL l)

/-- Python `s.replace(c, r)` for a single-character pattern `c`. -/
def replaceChar (l : List Char) (c : Char) (r : List Char) : List Char :=
  l.flatMap (fun x => if x = c then r else [x])

/-- Model of Python `str.isalnum` (restricted to the ASCII range; the
Unicode extension does not affect any of the verified properties). -/
def pyIsAlnum (c : Char) : Bool := c.isAlphanum

/-- Characters kept by `sanitize_name`: `c.isalnum() or c in ("_", ".")`
(`openaudible_to_ab.py` line 154 / `modules/utils.py` line 69). -/
def keepChar (c : Char) : Bool := pyIsAlnum c || c = '_' || c = '.'

/-- `sanitize_name` from `modules/utils.py` lines 57-70 (identical to
`openaudible_to_ab.py` lines 141-156): remove commas, replace spaces with
underscores, keep only alphanumerics, underscores and periods, and
finally `rstrip()`. -/
def sanitize_name (name : List Char) : List Char :=
  pyStripR ((replaceChar (replaceChar name ',' []) ' ' ['_']).filter keepChar)

/-! ### Helper lemmas on the string primitives -/

theorem mem_pyStripR {c : Char} {l : List Char} (h : c ∈ pyStripR l) : c ∈ l := by
  unfold pyStripR at h
  rw [List.mem_reverse] at h
  have hsub : List.Sublist (l.reverse.dropWhile pyIsSpace) l.reverse :=
    List.dropWhile_sublist _
  have := hsub.subset h
  rwa [List.mem_reverse] at this

theorem mem_sanitize_keep {c : Char} {l : List Char}
    (h : c ∈ sanitize_name l) : keepChar c = true := by
  unfold sanitize_name at h
  have h2 := mem_pyStripR h
  exact (List.mem_filter.mp h2).2

theorem replaceChar_eq_self {l : List Char} {c : Char} {r : List Char}
    (h : ∀ x ∈ l, x ≠ c) : replaceChar l c r = l := by
  induction l with
  | nil => rfl
  | cons a t ih =>
    unfold replaceChar at *
    simp only [List.flatMap_cons]
    rw [if_neg (h a (List.mem_cons_self _ _))]
    rw [ih (fun x hx => h x (List.mem_cons_of_mem a hx))]
    rfl

theorem filter_eq_self_of_keep {l : List Char}
    (h : ∀ x ∈ l, keepChar x = true) : l.filter keepChar = l :=
  List.filter_eq_self.mpr h

theorem dropWhile_eq_self_of_none {p : Char → Bool} {l : List Char}
    (h : ∀ x ∈ l, p x = false) : l.dropWhile p = l := by
  cases l with
  | nil => rfl
  | cons a t =>
    rw [List.dropWhile_cons]
    rw [h a (List.mem_cons_self _ _)]
    simp

theorem pyStripR_eq_self_of_no_space {l : List Char}
    (h : ∀ x ∈ l, pyIsSpace x = false) : pyStripR l = l := by
  unfold pyStripR
  rw [dropWhile_eq_self_of_none (fun x hx => h x (List.mem_reverse.mp hx))]
  exact List.reverse_reverse l

theorem keep_not_space {c : Char} (h : keepChar c = true) :
    pyIsSpace c = false := by
  by_contra hcon
  have hsp : pyIsSpace c = true := by
    cases hx : pyIsSpace c
    · exact absurd hx hcon
    · rfl
  unfold pyIsSpace at hsp
  simp only [Bool.or_eq_true, decide_eq_true_eq] at hsp
  rcases hsp with ((((rfl | rfl) | rfl) | rfl) | rfl) | rfl <;> revert h <;> decide

/--
**C8.** `sanitize_name` is a total function from strings to strings whose
output contains only alphanumeric characters, underscores and periods — in
particular never a path separator — and the empty string maps to the
empty string.  (`modules/utils.py` lines 57-70.)
-/
theorem sanitize_name_safe :
    (∀ (l : List Char) (c : Char), c ∈ sanitize_name l →
      (pyIsAlnum c = true ∨ c = '_' ∨ c = '.') ∧ c ≠ '/' ∧ c ≠ '\\') ∧
    sanitize_name [] = [] := by
  constructor
  · intro l c hc
    have hk := mem_sanitize_keep hc
    unfold keepChar at hk
    simp only [Bool.or_eq_true, decide_eq_true_eq] at hk
    rcases hk with (h | h) | h
    · exact ⟨Or.inl h, by rintro rfl; revert h; decide, by rintro rfl; revert h; decide⟩
    · exact ⟨Or.inr (Or.inl h), by rintro rfl; revert h; decide,
        by rintro rfl; revert h; decide⟩
    · exact ⟨Or.inr (Or.inr h), by rintro rfl; revert h; decide,
        by rintro rfl; revert h; decide⟩
  · rfl

/-- Witness for C8 at a concrete input. -/
theorem sanitize_name_safe_witness :
    ('a' ∈ sanitize_name ('a' :: 'b' :: ' ' :: 'c' :: [])) ∧
      ((pyIsAlnum 'a' = true ∨ 'a' = '_' ∨ 'a' = '.') ∧ 'a' ≠ '/' ∧ 'a' ≠ '\\') := by
  refine ⟨by decide, sanitize_name_safe.1 ('a' :: 'b' :: ' ' :: 'c' :: []) 'a' (by decide)⟩

/--
**C9.** `sanitize_name` is idempotent: its output contains no commas, no
spaces and no characters removed by the filter, so a second application
changes nothing.
-/
theorem sanitize_name_idempotent (l : List Char) :
    sanitize_name (sanitize_name l) = sanitize_name l := by
  have hkeep : ∀ x ∈ sanitize_name l, keepChar x = true :=
    fun x hx => mem_sanitize_keep hx
  have hnocomma : ∀ x ∈ sanitize_name l, x ≠ ',' := by
    intro x hx hcon
    have := hkeep x hx
    rw [hcon] at this
    revert this
    decide
  have hnospace : ∀ x ∈ sanitize_name l, x ≠ ' ' := by
    intro x hx hcon
    have := hkeep x hx
    rw [hcon] at this
    revert this
    decide
  conv_lhs => rw [sanitize_name]
  rw [replaceChar_eq_self hnocomma, replaceChar_eq_self hnospace,
    filter_eq_self_of_keep hkeep]
  exact pyStripR_eq_self_of_no_space (fun x hx => keep_not_space (hkeep x hx))

/-! ## Date parsing

Model of `datetime.strptime` for the two fixed formats used by the code
(`%Y-%m-%dT%H:%M:%S.%f` and `%Y-%m-%d`), of `_parse_date` from
`modules/utils.py` lines 7-32, and of the inline date handling of
`process_libation_book_json` (`openaudible_to_ab.py` lines 217-228). -/

/-- Gregorian leap-year test (as in `datetime`). -/
def isLeap (y : Nat) : Bool := (y % 4 = 0 && y % 100 ≠ 0) || y % 400 = 0

/-- Days in a month (as validated by `datetime`). -/
def daysInMonth (y m : Nat) : Nat :=
  if m = 2 then (if isLeap y then 29 else 28)
  else if m = 4 || m = 6 || m = 9 || m = 11 then 30 else 31

/-- `%Y`: exactly four digits. -/
def rd4 : List Char → Option (Nat × List Char)
  | a :: b :: c :: d :: r =>
    if isDig a && isDig b && isDig c && isDig d then
      some (((dval a * 10 + dval b) * 10 + dval c) * 10 + dval d, r)
    else none
  | _ => none

/-- `%m`, `%d`, `%H`, `%M`, `%S`: one or two digits, greedy. -/
def rd2 : List Char → Option (Nat × List Char)
  | [] => none
  | c :: r =>
    if isDig c then
      match r with
      | c2 :: r2 => if isDig c2 then some (dval c * 10 + dval c2, r2) else some (dval c, r)
      | [] => some (dval c, [])
    else none

/-- Literal character in a `strptime` format. -/
def chr (c : Char) : List Char → Option (List Char)
  | [] => none
  | x :: r => if x = c then some r else none

/-- `%f` at the end of the format: one to six digits and nothing after. -/
def fracOk (l : List Char) : Bool := !l.isEmpty && l.length ≤ 6 && l.all isDig

/-- Field validation performed by `datetime` on construction. -/
def validDT (y m d h mi s : Nat) : Bool :=
  decide (1 ≤ y) && decide (1 ≤ m) && decide (m ≤ 12) &&
  decide (1 ≤ d) && decide (d ≤ daysInMonth y m) &&
  decide (h ≤ 23) && decide (mi ≤ 59) && decide (s ≤ 59)

/-- `datetime.strptime(s, "%Y-%m-%dT%H:%M:%S.%f")`, keeping only the date
fields that the callers use; `none` models the raised `ValueError`. -/
def strptimeDT (l : List Char) : Option (Nat × Nat × Nat) :=
  match rd4 l with
  | none => none
  | some (y, r1) =>
  match chr '-' r1 with
  | none => none
  | some r2 =>
  match rd2 r2 with
  | none => none
  | some (m, r3) =>
  match chr '-' r3 with
  | none => none
  | some r4 =>
  match rd2 r4 with
  | none => none
  | some (d, r5) =>
  match chr 'T' r5 with
  | none => none
  | some r6 =>
  match rd2 r6 with
  | none => none
  | some (h, r7) =>
  match chr ':' r7 with
  | none => none
  | some r8 =>
  match rd2 r8 with
  | none => none
  | some (mi, r9) =>
  match chr ':' r9 with
  | none => none
  | some r10 =>
  match rd2 r10 with
  | none => none
  | some (s, r11) =>
  match chr '.' r11 with
  | none => none
  | some r12 =>
    if fracOk r12 && validDT y m d h mi s then some (y, m, d) else none

/-- `datetime.strptime(s, "%Y-%m-%d")`; `none` models the `ValueError`. -/
def strptimeD (l : List Char) : Option (Nat × Nat × Nat) :=
  match rd4 l with
  | none => none
  | some (y, r1) =>
  match chr '-' r1 with
  | none => none
  | some r2 =>
  match rd2 r2 with
  | none => none
  | some (m, r3) =>
  match chr '-' r3 with
  | none => none
  | some r4 =>
  match rd2 r4 with
  | none => none
  | some (d, r5) =>
    if r5.isEmpty && validDT y m d 0 0 0 then some (y, m, d) else none

/-- `dt.strftime("%Y-%m-%d")` for an in-range date. -/
def fmtDate (y m d : Nat) : List Char :=
  [dchar (y / 1000), dchar (y / 100), dchar (y / 10), dchar y, '-',
   dchar (m / 10), dchar m, '-', dchar (d / 10), dchar d]

/-- Index of the last occurrence of a character (`str.rindex`; `none`
models the raised `ValueError`). -/
def rfindIdx : List Char → Char → Option Nat
  | [], _ => none
  | x :: xs, c =>
    match rfindIdx xs c with
    | some i => some (i + 1)
    | none => if x = c then some 0 else none

/-- Lines 26-32 of `_parse_date`: optional split at the rightmost
occurrence of the split symbol (index `i`), fraction padding, parse and
re-format. -/
def afterSplit (l1 : List Char) (i : Nat) : Option (List Char) :=
  let p := if 19 ≤ i then l1.take i else l1
  let p2 := if '.' ∈ p then p else p ++ ['.', '0']
  (strptimeDT p2).map (fun x => fmtDate x.1 x.2.1 x.2.2)

/-- `_parse_date` from `modules/utils.py` lines 7-32: strip a trailing
literal Z; pick `+` as split symbol if present, else `-`; split off the
rightmost occurrence only when its index is at least 19; ensure a
fractional part; parse and re-format.  `none` models a raised
`ValueError`. -/
def _parse_date (l : List Char) : Option (List Char) :=
  let l1 := if l.getLast? = some 'Z' then l.dropLast else l
  let sym := if '+' ∈ l1 then '+' else '-'
  match rfindIdx l1 sym with
  | none => none
  | some i => afterSplit l1 i

/-- The inline date handling of `process_libation_book_json`
(`openaudible_to_ab.py` lines 217-228): split on the first `+`, else on
the first `-`; ensure a fractional part; parse and re-format. -/
def libationInlineDate (l : List Char) : Option (List Char) :=
  let p := if '+' ∈ l then l.takeWhile (fun c => c != '+')
           else if '-' ∈ l then l.takeWhile (fun c => c != '-') else l
  let p2 := if '.' ∈ p then p else p ++ ['.', '0']
  (strptimeDT p2).map (fun x => fmtDate x.1 x.2.1 x.2.2)

/-! ### Structured well-formed timestamps

The supported input forms `YYYY-MM-DDTHH:MM:SS[.ffffff][Z|+HH:MM|-HH:MM]`
as a structure together with its rendering to a string. -/

inductive TzSuffix where
  | bare : TzSuffix
  | zulu : TzSuffix
  | plusOff : Nat → Nat → TzSuffix
  | minusOff : Nat → Nat → TzSuffix
deriving DecidableEq

structure Ts where
  year : Nat
  month : Nat
  day : Nat
  hour : Nat
  minute : Nat
  second : Nat
  frac : Option (List Char)
  suffix : TzSuffix
deriving DecidableEq

/-- The 19-character date-and-time portion `YYYY-MM-DDTHH:MM:SS`. -/
def bareTs (t : Ts) : List Char :=
  [dchar (t.year / 1000), dchar (t.year / 100), dchar (t.year / 10), dchar t.year, '-',
   dchar (t.month / 10), dchar t.month, '-', dchar (t.day / 10), dchar t.day, 'T',
   dchar (t.hour / 10), dchar t.hour, ':', dchar (t.minute / 10), dchar t.minute, ':',
   dchar (t.second / 10), dchar t.second]

def fracR : Option (List Char) → List Char
  | none => []
  | some fd => '.' :: fd

def suffR : TzSuffix → List Char
  | .bare => []
  | .zulu => ['Z']
  | .plusOff oh om =>
      '+' :: dchar (oh / 10) :: dchar oh :: ':' :: dchar (om / 10) :: dchar om :: []
  | .minusOff oh om =>
      '-' :: dchar (oh / 10) :: dchar oh :: ':' :: dchar (om / 10) :: dchar om :: []

def renderTs (t : Ts) : List Char := bareTs t ++ fracR t.frac ++ suffR t.suffix

/-- Well-formedness of a structured timestamp: in-range calendar fields, a
four-digit year, and one to six fractional digits when present. -/
def validTs (t : Ts) : Bool :=
  decide (1000 ≤ t.year) && decide (t.year ≤ 9999) &&
  decide (1 ≤ t.month) && decide (t.month ≤ 12) &&
  decide (1 ≤ t.day) && decide (t.day ≤ daysInMonth t.year t.month) &&
  decide (t.hour ≤ 23) && decide (t.minute ≤ 59) && decide (t.second ≤ 59) &&
  (match t.frac with | none => true | some fd => fracOk fd)

/-- The `YYYY-MM-DD` portion of a structured timestamp. -/
def dateOf (t : Ts) : List Char := fmtDate t.year t.month t.day

/-! ### Digit-character lemmas -/

theorem isDig_dchar (n : Nat) : isDig (dchar n) = true := by
  unfold dchar
  split <;> decide

theorem dval_dchar (n : Nat) : dval (dchar n) = n % 10 := by
  have hlt : n % 10 < 10 := Nat.mod_lt _ (by decide)
  unfold dchar
  split <;> first
    | (rename_i x heq; rw [heq]; decide)
    | (rename_i x h0 h1 h2 h3 h4 h5 h6 h7 h8
       have h9 : n % 10 = 9 := by
         have g0 : n % 10 ≠ 0 := h0
         have g1 : n % 10 ≠ 1 := h1
         have g2 : n % 10 ≠ 2 := h2
         have g3 : n % 10 ≠ 3 := h3
         have g4 : n % 10 ≠ 4 := h4
         have g5 : n % 10 ≠ 5 := h5
         have g6 : n % 10 ≠ 6 := h6
         have g7 : n % 10 ≠ 7 := h7
         have g8 : n % 10 ≠ 8 := h8
         omega
       rw [h9]; decide)

theorem dchar_ne {c : Char} (h : isDig c = false) (n : Nat) : dchar n ≠ c := by
  intro he
  rw [← he, isDig_dchar] at h
  cases h

/-! ### Character classes of the rendered timestamp -/

theorem bare_chars {t : Ts} {c : Char} (hc : c ∈ bareTs t) :
    isDig c = true ∨ c = '-' ∨ c = ':' ∨ c = 'T' := by
  simp only [bareTs, List.mem_cons, List.not_mem_nil, or_false] at hc
  rcases hc with rfl|rfl|rfl|rfl|rfl|rfl|rfl|rfl|rfl|rfl|rfl|rfl|rfl|rfl|rfl|rfl|rfl|rfl|rfl <;>
    simp [isDig_dchar]

theorem fracOk_frac {t : Ts} (hv : validTs t = true) :
    (match t.frac with | none => true | some fd => fracOk fd) = true := by
  unfold validTs at hv
  simp only [Bool.and_eq_true] at hv
  exact hv.2

theorem fracR_chars {f : Option (List Char)}
    (hok : (match f with | none => true | some fd => fracOk fd) = true)
    {c : Char} (hc : c ∈ fracR f) : c = '.' ∨ isDig c = true := by
  cases f with
  | none => cases hc
  | some fd =>
    simp only [fracR, List.mem_cons] at hc
    rcases hc with rfl | hc
    · exact Or.inl rfl
    · right
      unfold fracOk at hok
      simp only [Bool.and_eq_true, List.all_eq_true] at hok
      exact hok.2 c hc

theorem offL_chars {c x : Char} {oh om : Nat}
    (hc : c ∈ x :: dchar (oh / 10) :: dchar oh :: ':' :: dchar (om / 10) :: dchar om :: [])
    (hx : c ≠ x) : isDig c = true ∨ c = ':' := by
  simp only [List.mem_cons, List.not_mem_nil, or_false] at hc
  rcases hc with rfl|rfl|rfl|rfl|rfl|rfl
  · exact absurd rfl hx
  all_goals simp [isDig_dchar]

theorem plus_not_mem_bare (t : Ts) : '+' ∉ bareTs t := by
  intro h
  rcases bare_chars h with h1 | h1 | h1 | h1 <;> revert h1 <;> decide

theorem dot_not_mem_bare (t : Ts) : '.' ∉ bareTs t := by
  intro h
  rcases bare_chars h with h1 | h1 | h1 | h1 <;> revert h1 <;> decide

theorem plus_not_mem_fracR {t : Ts} (hv : validTs t = true) : '+' ∉ fracR t.frac := by
  intro h
  rcases fracR_chars (fracOk_frac hv) h with h1 | h1 <;> revert h1 <;> decide

theorem minus_not_mem_fracR {t : Ts} (hv : validTs t = true) : '-' ∉ fracR t.frac := by
  intro h
  rcases fracR_chars (fracOk_frac hv) h with h1 | h1 <;> revert h1 <;> decide

/-- The seven characters `YYYY-MM` before the second hyphen. -/
def bare7 (t : Ts) : List Char :=
  [dchar (t.year / 1000), dchar (t.year / 100), dchar (t.year / 10), dchar t.year, '-',
   dchar (t.month / 10), dchar t.month]

/-- The eleven characters `DDTHH:MM:SS` after the second hyphen. -/
def bareTail (t : Ts) : List Char :=
  [dchar (t.day / 10), dchar t.day, 'T', dchar (t.hour / 10), dchar t.hour, ':',
   dchar (t.minute / 10), dchar t.minute, ':', dchar (t.second / 10), dchar t.second]

theorem bare_decomp (t : Ts) : bareTs t = bare7 t ++ '-' :: bareTail t := rfl

theorem minus_not_mem_bareTail (t : Ts) : '-' ∉ bareTail t := by
  intro h
  simp only [bareTail, List.mem_cons, List.not_mem_nil, or_false] at h
  rcases h with h|h|h|h|h|h|h|h|h|h|h <;> first
    | (exact dchar_ne (by decide) _ h.symm)
    | (revert h; decide)

theorem length_bare (t : Ts) : (bareTs t).length = 19 := rfl

/-! ### `rindex`, `rsplit` and `takeWhile` helper lemmas -/

theorem rfindIdx_eq_none {l : List Char} {c : Char} (h : c ∉ l) :
    rfindIdx l c = none := by
  induction l with
  | nil => rfl
  | cons a t ih =>
    have ha : ¬ a = c := fun he => h (by rw [he]; exact List.mem_cons_self c t)
    rw [rfindIdx, ih (fun hm => h (List.mem_cons_of_mem a hm))]
    simp [ha]

theorem rfindIdx_append_last {l1 l2 : List Char} {c : Char} (h : c ∉ l2) :
    rfindIdx (l1 ++ c :: l2) c = some l1.length := by
  induction l1 with
  | nil =>
    rw [List.nil_append, rfindIdx, rfindIdx_eq_none h]
    simp
  | cons a t ih =>
    rw [List.cons_append, rfindIdx, ih]
    rfl

theorem takeWhile_append_stop {l1 l2 : List Char} {a : Char}
    (h : ∀ c ∈ l1, c ≠ a) :
    (l1 ++ a :: l2).takeWhile (fun c => c != a) = l1 := by
  induction l1 with
  | nil => simp [List.takeWhile_cons]
  | cons x t ih =>
    rw [List.cons_append, List.takeWhile_cons]
    have hx : (x != a) = true := by
      simp only [bne_iff_ne, ne_eq]
      exact h x (List.mem_cons_self x t)
    rw [hx]
    simp [ih (fun c hc => h c (List.mem_cons_of_mem x hc))]

theorem rd4_cons {a b c d : Char} (r : List Char) (ha : isDig a = true)
    (hb : isDig b = true) (hc : isDig c = true) (hd : isDig d = true) :
    rd4 (a :: b :: c :: d :: r) =
      some (((dval a * 10 + dval b) * 10 + dval c) * 10 + dval d, r) := by
  simp [rd4, ha, hb, hc, hd]

theorem rd2_cons2 {c1 c2 : Char} (r : List Char) (h1 : isDig c1 = true)
    (h2 : isDig c2 = true) :
    rd2 (c1 :: c2 :: r) = some (dval c1 * 10 + dval c2, r) := by
  simp [rd2, h1, h2]

theorem chr_cons (c : Char) (r : List Char) : chr c (c :: r) = some r := by
  simp [chr]

theorem daysInMonth_le31 (y m : Nat) : daysInMonth y m ≤ 31 := by
  unfold daysInMonth
  split
  · split <;> decide
  · split <;> decide

theorem validTs_fields {t : Ts} (hv : validTs t = true) :
    (1000 ≤ t.year && t.year ≤ 9999 && 1 ≤ t.month && t.month ≤ 12 &&
    1 ≤ t.day && t.day ≤ daysInMonth t.year t.month &&
    t.hour ≤ 23 && t.minute ≤ 59 && t.second ≤ 59) = true := by
  unfold validTs at hv
  simp only [Bool.and_eq_true] at hv ⊢
  exact ⟨⟨⟨⟨⟨⟨⟨⟨hv.1.1.1.1.1.1.1.1.1, hv.1.1.1.1.1.1.1.1.2⟩, hv.1.1.1.1.1.1.1.2⟩,
    hv.1.1.1.1.1.1.2⟩, hv.1.1.1.1.1.2⟩, hv.1.1.1.1.2⟩, hv.1.1.1.2⟩, hv.1.1.2⟩, hv.1.2⟩

/-- Central parsing fact: `strptime` applied to a rendered well-formed
timestamp body (with any admissible fractional digit list) recovers the
calendar fields. -/
theorem strptimeDT_render (t : Ts) (fd : List Char) (hv : validTs t = true)
    (hfd : fracOk fd = true) :
    strptimeDT (bareTs t ++ '.' :: fd) = some (t.year, t.month, t.day) := by
  have hflds := validTs_fields hv
  simp only [Bool.and_eq_true, decide_eq_true_eq] at hflds
  obtain ⟨⟨⟨⟨⟨⟨⟨⟨hy1, hy2⟩, hm1⟩, hm2⟩, hd1⟩, hd2⟩, hh⟩, hmi⟩, hs⟩ := hflds
  have hdm31 : daysInMonth t.year t.month ≤ 31 := daysInMonth_le31 _ _
  simp only [bareTs, List.cons_append, List.nil_append]
  simp only [strptimeDT, rd4_cons, rd2_cons2, chr_cons, isDig_dchar, dval_dchar]
  have hy : (((t.year / 1000 % 10 * 10 + t.year / 100 % 10) * 10 + t.year / 10 % 10) * 10
      + t.year % 10) = t.year := by omega
  have hm : t.month / 10 % 10 * 10 + t.month % 10 = t.month := by omega
  have hd : t.day / 10 % 10 * 10 + t.day % 10 = t.day := by omega
  have hho : t.hour / 10 % 10 * 10 + t.hour % 10 = t.hour := by omega
  have hmo : t.minute / 10 % 10 * 10 + t.minute % 10 = t.minute := by omega
  have hso : t.second / 10 % 10 * 10 + t.second % 10 = t.second := by omega
  rw [hy, hm, hd, hho, hmo, hso, hfd]
  have hvd : validDT t.year t.month t.day t.hour t.minute t.second = true := by
    unfold validDT
    simp only [Bool.and_eq_true, decide_eq_true_eq]
    refine ⟨⟨⟨⟨⟨⟨⟨?_, ?_⟩, ?_⟩, ?_⟩, ?_⟩, ?_⟩, ?_⟩, ?_⟩ <;> omega
  rw [hvd]
  simp

theorem getLast?_all_dig {l : List Char} (hne : l ≠ []) (hall : l.all isDig = true) :
    ∃ c, l.getLast? = some c ∧ isDig c = true := by
  induction l with
  | nil => exact absurd rfl hne
  | cons a t ih =>
    simp only [List.all_cons, Bool.and_eq_true] at hall
    cases t with
    | nil => exact ⟨a, rfl, hall.1⟩
    | cons b u =>
      obtain ⟨c, hc, hd⟩ := ih (by simp) hall.2
      exact ⟨c, by rw [List.getLast?_cons_cons]; exact hc, hd⟩

theorem fracOk_zero : fracOk ['0'] = true := by decide

/-- The common tail of `_parse_date` once the string has been cut back to
`YYYY-MM-DDTHH:MM:SS[.ffffff]`. -/
theorem tail_parse (t : Ts) (hv : validTs t = true) :
    (strptimeDT (if '.' ∈ (bareTs t ++ fracR t.frac) then bareTs t ++ fracR t.frac
      else (bareTs t ++ fracR t.frac) ++ ['.', '0'])).map
        (fun x => fmtDate x.1 x.2.1 x.2.2) = some (dateOf t) := by
  cases hf : t.frac with
  | none =>
    simp only [hf, fracR, List.append_nil]
    rw [if_neg (dot_not_mem_bare t)]
    rw [show (bareTs t ++ ['.', '0'] : List Char) = bareTs t ++ '.' :: ['0'] from rfl]
    rw [strptimeDT_render t ['0'] hv fracOk_zero]
    rfl
  | some fd =>
    simp only [hf, fracR]
    rw [if_pos (List.mem_append_right _ (List.mem_cons_self '.' fd))]
    have hfok : fracOk fd = true := by
      have h2 := fracOk_frac hv
      rw [hf] at h2
      exact h2
    rw [strptimeDT_render t fd hv hfok]
    rfl

theorem plus_not_mem_q {t : Ts} (hv : validTs t = true) :
    '+' ∉ bareTs t ++ fracR t.frac := by
  intro h
  rcases List.mem_append.mp h with h1 | h1
  · exact plus_not_mem_bare t h1
  · exact plus_not_mem_fracR hv h1

theorem minus_not_mem_tailq {t : Ts} (hv : validTs t = true) :
    '-' ∉ bareTail t ++ fracR t.frac := by
  intro h
  rcases List.mem_append.mp h with h1 | h1
  · exact minus_not_mem_bareTail t h1
  · exact minus_not_mem_fracR hv h1

theorem rfind_minus_q {t : Ts} (hv : validTs t = true) :
    rfindIdx (bareTs t ++ fracR t.frac) '-' = some 7 := by
  rw [bare_decomp t, List.append_assoc, List.cons_append]
  rw [rfindIdx_append_last (minus_not_mem_tailq hv)]
  rfl

/-- The first 18 characters of the date-time portion. -/
def bareInit (t : Ts) : List Char :=
  [dchar (t.year / 1000), dchar (t.year / 100), dchar (t.year / 10), dchar t.year, '-',
   dchar (t.month / 10), dchar t.month, '-', dchar (t.day / 10), dchar t.day, 'T',
   dchar (t.hour / 10), dchar t.hour, ':', dchar (t.minute / 10), dchar t.minute, ':',
   dchar (t.second / 10)]

theorem bare_concat (t : Ts) : bareTs t = bareInit t ++ [dchar t.second] := rfl

theorem fracOk_parts {fd : List Char} (hfok : fracOk fd = true) :
    fd ≠ [] ∧ fd.all isDig = true := by
  unfold fracOk at hfok
  simp only [Bool.and_eq_true, Bool.not_eq_eq_eq_not, Bool.not_false] at hfok
  constructor
  · intro h
    rw [h] at hfok
    simp at hfok
  · exact hfok.2

theorem q_getLast_ne_Z {t : Ts} (hv : validTs t = true) :
    ¬ (bareTs t ++ fracR t.frac).getLast? = some 'Z' := by
  cases hf : t.frac with
  | none =>
    simp only [hf, fracR, List.append_nil]
    rw [bare_concat t, List.getLast?_concat]
    intro he
    exact dchar_ne (by decide) _ (Option.some.inj he)
  | some fd =>
    have hfok : fracOk fd = true := by
      have h2 := fracOk_frac hv
      rw [hf] at h2
      exact h2
    obtain ⟨hne, hall⟩ := fracOk_parts hfok
    obtain ⟨c, hc, hd⟩ := getLast?_all_dig hne hall
    simp only [hf, fracR]
    rw [List.getLast?_append]
    cases fd with
    | nil => exact absurd rfl hne
    | cons b u =>
      rw [List.getLast?_cons_cons, hc]
      intro he
      have : c = 'Z' := Option.some.inj he
      rw [this] at hd
      exact absurd hd (by decide)

theorem off_rest_chars {c : Char} {oh om : Nat}
    (hc : c ∈ [dchar (oh / 10), dchar oh, ':', dchar (om / 10), dchar om]) :
    isDig c = true ∨ c = ':' := by
  simp only [List.mem_cons, List.not_mem_nil, or_false] at hc
  rcases hc with rfl|rfl|rfl|rfl|rfl <;> simp [isDig_dchar]

theorem plus_not_mem_off {oh om : Nat} :
    '+' ∉ [dchar (oh / 10), dchar oh, ':', dchar (om / 10), dchar om] := by
  intro h
  rcases off_rest_chars h with h1 | h1 <;> revert h1 <;> decide

theorem minus_not_mem_off {oh om : Nat} :
    '-' ∉ [dchar (oh / 10), dchar oh, ':', dchar (om / 10), dchar om] := by
  intro h
  rcases off_rest_chars h with h1 | h1 <;> revert h1 <;> decide

theorem q_length_ge (t : Ts) : 19 ≤ (bareTs t ++ fracR t.frac).length := by
  rw [List.length_append, length_bare]
  omega

/-- `_parse_date` on a rendered well-formed timestamp with a Z suffix. -/
theorem parse_render_zulu (t : Ts) (hv : validTs t = true) (hs : t.suffix = .zulu) :
    _parse_date (renderTs t) = some (dateOf t) := by
  have hrender : renderTs t = (bareTs t ++ fracR t.frac) ++ ['Z'] := by
    rw [renderTs, hs]
    rfl
  rw [_parse_date, hrender]
  rw [List.getLast?_concat]
  rw [if_pos rfl]
  rw [List.dropLast_concat]
  rw [if_neg (plus_not_mem_q hv)]
  rw [rfind_minus_q hv]
  exact tail_parse t hv

/-- `_parse_date` on a rendered well-formed timestamp with no offset. -/
theorem parse_render_bare (t : Ts) (hv : validTs t = true) (hs : t.suffix = .bare) :
    _parse_date (renderTs t) = some (dateOf t) := by
  have hrender : renderTs t = bareTs t ++ fracR t.frac := by
    rw [renderTs, hs]
    exact List.append_nil _
  rw [_parse_date, hrender]
  rw [if_neg (q_getLast_ne_Z hv)]
  rw [if_neg (plus_not_mem_q hv)]
  rw [rfind_minus_q hv]
  exact tail_parse t hv

/-- `_parse_date` on a rendered well-formed timestamp with a `+HH:MM`
offset. -/
theorem parse_render_plus (t : Ts) (oh om : Nat) (hv : validTs t = true)
    (hs : t.suffix = .plusOff oh om) :
    _parse_date (renderTs t) = some (dateOf t) := by
  have hrender : renderTs t = (bareTs t ++ fracR t.frac) ++
      '+' :: [dchar (oh / 10), dchar oh, ':', dchar (om / 10), dchar om] := by
    rw [renderTs, hs]
    rfl
  have hlast : renderTs t = ((bareTs t ++ fracR t.frac) ++
      ['+', dchar (oh / 10), dchar oh, ':', dchar (om / 10)]) ++ [dchar om] := by
    rw [hrender]
    simp [List.append_assoc]
  rw [_parse_date]
  rw [show (if (renderTs t).getLast? = some 'Z' then (renderTs t).dropLast
      else renderTs t) = renderTs t from by
    rw [hlast, List.getLast?_concat]
    exact if_neg (fun he => dchar_ne (by decide) om (Option.some.inj he))]
  rw [hrender]
  rw [if_pos (List.mem_append_right _ (List.mem_cons_self '+' _))]
  rw [rfindIdx_append_last plus_not_mem_off]
  show afterSplit ((bareTs t ++ fracR t.frac) ++
      '+' :: [dchar (oh / 10), dchar oh, ':', dchar (om / 10), dchar om])
      (bareTs t ++ fracR t.frac).length = some (dateOf t)
  simp only [afterSplit]
  rw [if_pos (q_length_ge t)]
  rw [List.take_left]
  exact tail_parse t hv

/-- `_parse_date` on a rendered well-formed timestamp with a `-HH:MM`
offset. -/
theorem parse_render_minus (t : Ts) (oh om : Nat) (hv : validTs t = true)
    (hs : t.suffix = .minusOff oh om) :
    _parse_date (renderTs t) = some (dateOf t) := by
  have hrender : renderTs t = (bareTs t ++ fracR t.frac) ++
      '-' :: [dchar (oh / 10), dchar oh, ':', dchar (om / 10), dchar om] := by
    rw [renderTs, hs]
    rfl
  have hlast : renderTs t = ((bareTs t ++ fracR t.frac) ++
      ['-', dchar (oh / 10), dchar oh, ':', dchar (om / 10)]) ++ [dchar om] := by
    rw [hrender]
    simp [List.append_assoc]
  have hplus : '+' ∉ renderTs t := by
    rw [hrender]
    intro h
    rcases List.mem_append.mp h with h1 | h1
    · exact plus_not_mem_q hv h1
    · rcases List.mem_cons.mp h1 with h2 | h2
      · exact absurd h2 (by decide)
      · rcases off_rest_chars h2 with h3 | h3 <;> revert h3 <;> decide
  rw [_parse_date]
  rw [show (if (renderTs t).getLast? = some 'Z' then (renderTs t).dropLast
      else renderTs t) = renderTs t from by
    rw [hlast, List.getLast?_concat]
    exact if_neg (fun he => dchar_ne (by decide) om (Option.some.inj he))]
  rw [if_neg hplus]
  rw [hrender]
  rw [rfindIdx_append_last minus_not_mem_off]
  show afterSplit ((bareTs t ++ fracR t.frac) ++
      '-' :: [dchar (oh / 10), dchar oh, ':', dchar (om / 10), dchar om])
      (bareTs t ++ fracR t.frac).length = some (dateOf t)
  simp only [afterSplit]
  rw [if_pos (q_length_ge t)]
  rw [List.take_left]
  exact tail_parse t hv

/-- `_parse_date` maps every rendered well-formed supported timestamp to
its `YYYY-MM-DD` date portion. -/
theorem parse_render (t : Ts) (hv : validTs t = true) :
    _parse_date (renderTs t) = some (dateOf t) := by
  cases hs : t.suffix with
  | bare => exact parse_render_bare t hv hs
  | zulu => exact parse_render_zulu t hv hs
  | plusOff oh om => exact parse_render_plus t oh om hv hs
  | minusOff oh om => exact parse_render_minus t oh om hv hs

/-! ### The inline date handling of the Libation normalizer -/

/-- The four year digit characters. -/
def bare4 (t : Ts) : List Char :=
  [dchar (t.year / 1000), dchar (t.year / 100), dchar (t.year / 10), dchar t.year]

/-- The fourteen characters `MM-DDTHH:MM:SS` after the first hyphen. -/
def bare14 (t : Ts) : List Char :=
  [dchar (t.month / 10), dchar t.month, '-', dchar (t.day / 10), dchar t.day, 'T',
   dchar (t.hour / 10), dchar t.hour, ':', dchar (t.minute / 10), dchar t.minute, ':',
   dchar (t.second / 10), dchar t.second]

theorem bare_decomp4 (t : Ts) : bareTs t = bare4 t ++ '-' :: bare14 t := rfl

theorem bare4_digits {t : Ts} {c : Char} (hc : c ∈ bare4 t) : isDig c = true := by
  simp only [bare4, List.mem_cons, List.not_mem_nil, or_false] at hc
  rcases hc with rfl|rfl|rfl|rfl <;> simp [isDig_dchar]

theorem strptimeDT_bare4 (t : Ts) :
    strptimeDT (bare4 t ++ ['.', '0']) = none := by
  simp only [bare4, List.cons_append, List.nil_append]
  rw [strptimeDT, rd4_cons _ (isDig_dchar _) (isDig_dchar _) (isDig_dchar _) (isDig_dchar _)]
  rfl

/-- When the string starts `YYYY-` and holds no `+`, the inline handling
cuts it down to the four year digits and the subsequent parse fails. -/
theorem inline_year_failure (t : Ts) {l rest : List Char}
    (hl : l = bare4 t ++ '-' :: rest) (hplus : '+' ∉ l) :
    libationInlineDate l = none := by
  have hminus : '-' ∈ l := by
    rw [hl]
    exact List.mem_append_right _ (List.mem_cons_self '-' rest)
  rw [libationInlineDate, if_neg hplus, if_pos hminus, hl]
  rw [takeWhile_append_stop (fun c hc => fun he =>
    absurd (bare4_digits (he ▸ hc)) (by decide))]
  rw [if_neg (fun hdot => absurd (bare4_digits hdot) (by decide))]
  rw [strptimeDT_bare4]
  rfl

theorem bare_starts_minus (t : Ts) :
    bareTs t ++ fracR t.frac = bare4 t ++ '-' :: (bare14 t ++ fracR t.frac) := by
  rw [bare_decomp4 t, List.append_assoc, List.cons_append]

/-- When the suffix carries no `+`, neither does the whole rendered
string. -/
theorem plus_not_mem_render (t : Ts) (hv : validTs t = true)
    (hs : ∀ oh om, t.suffix ≠ TzSuffix.plusOff oh om) : '+' ∉ renderTs t := by
  rw [renderTs]
  intro h
  rcases List.mem_append.mp h with h1 | h1
  · rcases List.mem_append.mp h1 with h2 | h2
    · exact plus_not_mem_bare t h2
    · exact plus_not_mem_fracR hv h2
  · cases hsx : t.suffix with
    | bare => rw [hsx] at h1; cases h1
    | zulu =>
      rw [hsx] at h1
      revert h1
      decide
    | plusOff oh om => exact hs oh om hsx
    | minusOff oh om =>
      rw [hsx] at h1
      rcases List.mem_cons.mp h1 with h2 | h2
      · exact absurd h2 (by decide)
      · rcases off_rest_chars h2 with h3 | h3 <;> revert h3 <;> decide

/-- On a `+HH:MM` timestamp the inline handling agrees with
`_parse_date`. -/
theorem inline_render_plus (t : Ts) (oh om : Nat) (hv : validTs t = true)
    (hs : t.suffix = .plusOff oh om) :
    libationInlineDate (renderTs t) = some (dateOf t) := by
  have hrender : renderTs t = (bareTs t ++ fracR t.frac) ++
      '+' :: [dchar (oh / 10), dchar oh, ':', dchar (om / 10), dchar om] := by
    rw [renderTs, hs]
    rfl
  have hq : ∀ c ∈ bareTs t ++ fracR t.frac, c ≠ '+' := by
    intro c hc he
    rw [he] at hc
    exact plus_not_mem_q hv hc
  rw [libationInlineDate, hrender]
  rw [if_pos (List.mem_append_right _ (List.mem_cons_self '+' _))]
  rw [takeWhile_append_stop hq]
  exact tail_parse t hv

/-- On a rendered timestamp with no `+` offset the inline handling raises
(models the `ValueError` from parsing the bare year). -/
theorem inline_render_not_plus (t : Ts) (hv : validTs t = true)
    (hs : t.suffix = .bare ∨ t.suffix = .zulu ∨ ∃ oh om, t.suffix = .minusOff oh om) :
    libationInlineDate (renderTs t) = none := by
  have hplus : '+' ∉ renderTs t := by
    refine plus_not_mem_render t hv ?_
    intro oh om he
    rcases hs with h1 | h1 | ⟨a, b, h1⟩ <;> rw [h1] at he <;> cases he
  rcases hs with h1 | h1 | ⟨oh, om, h1⟩
  · have hrender : renderTs t = bare4 t ++ '-' :: (bare14 t ++ fracR t.frac) := by
      rw [renderTs, h1]
      rw [show suffR .bare = [] from rfl, List.append_nil]
      exact bare_starts_minus t
    exact inline_year_failure t hrender hplus
  · have hrender : renderTs t = bare4 t ++ '-' :: (bare14 t ++ fracR t.frac ++ ['Z']) := by
      rw [renderTs, h1]
      rw [show suffR .zulu = ['Z'] from rfl]
      rw [bare_decomp4 t]
      simp [List.append_assoc]
    exact inline_year_failure t hrender hplus
  · have hrender : renderTs t = bare4 t ++ '-' :: (bare14 t ++ fracR t.frac ++
        '-' :: [dchar (oh / 10), dchar oh, ':', dchar (om / 10), dchar om]) := by
      rw [renderTs, h1]
      rw [show suffR (.minusOff oh om) =
        '-' :: [dchar (oh / 10), dchar oh, ':', dchar (om / 10), dchar om] from rfl]
      rw [bare_decomp4 t]
      simp [List.append_assoc]
    exact inline_year_failure t hrender hplus

/-! ### Claims C1 and C6 -/

/-- A concrete supported timestamp string with a Z suffix. -/
def zInput : List Char := "2024-04-24T14:35:02.174Z".toList

/-- The structured form of `zInput`. -/
def zTs : Ts :=
  { year := 2024, month := 4, day := 24, hour := 14, minute := 35, second := 2,
    frac := some ['1', '7', '4'], suffix := .zulu }

/-- The structured form of a concrete `+HH:MM` timestamp. -/
def pTs : Ts :=
  { year := 2024, month := 4, day := 24, hour := 14, minute := 35, second := 2,
    frac := none, suffix := .plusOff 2 0 }

/--
**C1 — counterexample.** The inline date handling of
`process_libation_book_json` and `_parse_date` are NOT equal as functions
on the supported timestamp forms: on the Z-suffixed form
`2024-04-24T14:35:02.174Z` the inline handling splits at the first hyphen,
keeps only `2024`, and raises a `ValueError` (modelled as `none`), while
`_parse_date` returns `2024-04-24`.
-/
theorem C1_cex :
    libationInlineDate zInput = none ∧
    _parse_date zInput = some ("2024-04-24".toList) ∧
    libationInlineDate zInput ≠ _parse_date zInput := by
  refine ⟨by decide, by decide, by decide⟩

/--
**C1 — amended.** The inline date handling of `process_libation_book_json`
agrees with `_parse_date` exactly on the supported forms that carry a
`+HH:MM` offset; on the `Z`-suffixed, offset-free and `-HH:MM` forms the
inline handling raises a `ValueError` (modelled `none`) while
`_parse_date` returns the `YYYY-MM-DD` date portion.
-/
theorem C1_inline_vs_parse_date (t : Ts) (hv : validTs t = true) :
    (∀ oh om, t.suffix = TzSuffix.plusOff oh om →
      libationInlineDate (renderTs t) = _parse_date (renderTs t)) ∧
    ((t.suffix = .bare ∨ t.suffix = .zulu ∨ ∃ oh om, t.suffix = .minusOff oh om) →
      libationInlineDate (renderTs t) = none ∧
      _parse_date (renderTs t) = some (dateOf t)) := by
  constructor
  · intro oh om hs
    rw [inline_render_plus t oh om hv hs, parse_render t hv]
  · intro hs
    exact ⟨inline_render_not_plus t hv hs, parse_render t hv⟩

/-- Witness for C1 at concrete inputs (one `+HH:MM` timestamp where the
two functions agree, and the structured Z timestamp where they differ). -/
theorem C1_inline_vs_parse_date_witness :
    (validTs pTs = true ∧
      libationInlineDate (renderTs pTs) = _parse_date (renderTs pTs)) ∧
    (validTs zTs = true ∧
      libationInlineDate (renderTs zTs) = none ∧
      _parse_date (renderTs zTs) = some (dateOf zTs)) := by
  refine ⟨⟨by decide, (C1_inline_vs_parse_date pTs (by decide)).1 2 0 rfl⟩,
    ⟨by decide, (C1_inline_vs_parse_date zTs (by decide)).2 (Or.inr (Or.inl rfl))⟩⟩

/--
**C6.** `_parse_date` maps every well-formed string of the supported forms
`YYYY-MM-DDTHH:MM:SS[.ffffff][Z|+HH:MM|-HH:MM]` to its date portion
`YYYY-MM-DD` (the offset delimiter is split off only when its rightmost
occurrence sits at index at least 19 after stripping a trailing Z — shown
by the universal statement over all rendered forms); in particular the
three concrete test vectors of the specification hold.
-/
theorem C6_parse_date_correct :
    (∀ t : Ts, validTs t = true → _parse_date (renderTs t) = some (dateOf t)) ∧
    _parse_date ("2024-04-24T14:35:02.174Z".toList) = some ("2024-04-24".toList) ∧
    _parse_date ("2024-02-29T12:00:00.000Z".toList) = some ("2024-02-29".toList) ∧
    _parse_date ("2024-04-24T14:35:02+02:00".toList) = some ("2024-04-24".toList) := by
  refine ⟨fun t hv => parse_render t hv, by decide, by decide, by decide⟩

/-- Witness for C6: the universal part applied at the concrete structured
Z timestamp. -/
theorem C6_parse_date_correct_witness :
    validTs zTs = true ∧ _parse_date (renderTs zTs) = some (dateOf zTs) :=
  ⟨by decide, C6_parse_date_correct.1 zTs (by decide)⟩

/-! ## The catalog recency filter (`modules/audio_bookshelf.py`)

`get_audio_bookshelf_recent_books` (lines 54-95): a catalog item is a dict
with `addedAt` (epoch milliseconds) and nested `media.metadata.title` /
`media.metadata.asin`; a placed-book entry carries `short_title` and
`asin`.  The Python loop mutates matched items in place (setting their
`asin`) and appends references; the model therefore tracks the mutated
item list and the appended indices, and reads the final state at the
end. -/

structure CatalogItem where
  addedAt : Int
  title : List Char
  asin : List Char
deriving DecidableEq, Inhabited

structure PlacedBook where
  short_title : List Char
  asin : List Char
deriving DecidableEq

/-- Python substring test `needle in hay`. -/
def isSub (needle hay : List Char) : Bool :=
  hay.tails.any (fun t => needle.isPrefixOf t)

/-- The in-place `item["media"]["metadata"]["asin"] = book["asin"]`
update, applied when the book's short title occurs in the item title. -/
def updAsin (b : PlacedBook) (it : CatalogItem) : CatalogItem :=
  if isSub b.short_title it.title then { it with asin := b.asin } else it

/-- The nested loops of the `else` branch: for each placed book, append
(the index of) every catalog item whose title contains the book's short
title, updating the item's `asin` in place.  Returns the final item state
and the appended indices in order. -/
def matchLoop : List PlacedBook → List CatalogItem → List CatalogItem × List Nat
  | [], st => (st, [])
  | b :: bs, st =>
    let idxs := (List.range st.length).filter
      (fun j => isSub b.short_title (st.getD j default).title)
    let res := matchLoop bs (st.map (updAsin b))
    (res.1, idxs ++ res.2)

/-- Proleptic-Gregorian ordinal of 1970-01-01 (`date(1970,1,1).toordinal()`). -/
def epochOrd : Int := 719163

/-- Date ordinal of `datetime.fromtimestamp(ms / 1000, timezone.utc).date()`. -/
def addedDateOrd (ms : Int) : Int := epochOrd + Int.fdiv ms 86400000

/-- Lines 73-74: a non-empty `book_list` overrides `days_ago` with 0. -/
def effectiveDaysAgo (book_list : List PlacedBook) (days_ago : Int) : Int :=
  if book_list ≠ [] then 0 else days_ago

/-- `get_audio_bookshelf_recent_books` from `modules/audio_bookshelf.py`
lines 54-95.  `nowOrd` is the date ordinal of `datetime.now(timezone.utc)`;
the threshold date `(now - timedelta(days=days_ago)).date()` is then
`nowOrd - days_ago`. -/
def get_audio_bookshelf_recent_books (nowOrd : Int) (items : List CatalogItem)
    (days_ago : Int) (book_list : List PlacedBook) : List CatalogItem :=
  if effectiveDaysAgo book_list days_ago > 0 then
    items.filter (fun it =>
      addedDateOrd it.addedAt ≥ nowOrd - effectiveDaysAgo book_list days_ago)
  else
    let r := matchLoop book_list items
    r.2.map (fun j => r.1.getD j default)

theorem updAsin_title (b : PlacedBook) (it : CatalogItem) :
    (updAsin b it).title = it.title := by
  unfold updAsin
  split <;> rfl

theorem getD_map_updAsin (b : PlacedBook) (st : List CatalogItem) (j : Nat)
    (hj : j < st.length) :
    (st.map (updAsin b)).getD j default = updAsin b (st.getD j default) := by
  rw [List.getD_eq_getElem?_getD, List.getD_eq_getElem?_getD, List.getElem?_map]
  rw [List.getElem?_eq_getElem hj]
  rfl

theorem matchLoop_length (bs : List PlacedBook) (st : List CatalogItem) :
    (matchLoop bs st).1.length = st.length := by
  induction bs generalizing st with
  | nil => rfl
  | cons b bs ih =>
    rw [matchLoop]
    rw [ih]
    exact List.length_map _ _

theorem matchLoop_title (bs : List PlacedBook) (st : List CatalogItem) (j : Nat) :
    ((matchLoop bs st).1.getD j default).title = (st.getD j default).title := by
  induction bs generalizing st with
  | nil => rfl
  | cons b bs ih =>
    rw [matchLoop]
    rcases Nat.lt_or_ge j st.length with hj | hj
    · rw [ih, getD_map_updAsin b st j hj, updAsin_title]
    · have h1 : st.getD j default = default := by
        rw [List.getD_eq_getElem?_getD, List.getElem?_eq_none hj]
        rfl
      have h2 : (st.map (updAsin b)).getD j default = default := by
        rw [List.getD_eq_getElem?_getD, List.getElem?_eq_none (by
          rw [List.length_map]; exact hj)]
        rfl
      rw [ih, h1, h2]

theorem matchLoop_idx_mem {bs : List PlacedBook} {st : List CatalogItem} {j : Nat}
    (hj : j ∈ (matchLoop bs st).2) :
    j < st.length ∧ ∃ b ∈ bs, isSub b.short_title ((st.getD j default).title) = true := by
  induction bs generalizing st with
  | nil => cases hj
  | cons b bs ih =>
    rw [matchLoop] at hj
    rcases List.mem_append.mp hj with h1 | h1
    · have h2 := List.mem_filter.mp h1
      exact ⟨List.mem_range.mp h2.1, b, List.mem_cons_self b bs, h2.2⟩
    · obtain ⟨hlt, b2, hb2, hsub⟩ := ih h1
      rw [List.length_map] at hlt
      rw [getD_map_updAsin b st j hlt, updAsin_title] at hsub
      exact ⟨hlt, b2, List.mem_cons_of_mem b hb2, hsub⟩

theorem matchLoop_nomatch {bs : List PlacedBook} {st : List CatalogItem} {j : Nat}
    (hj : j < st.length)
    (hno : ∀ b ∈ bs, isSub b.short_title ((st.getD j default).title) = false) :
    (matchLoop bs st).1.getD j default = st.getD j default := by
  induction bs generalizing st with
  | nil => rfl
  | cons b bs ih =>
    rw [matchLoop]
    have hj2 : j < (st.map (updAsin b)).length := by
      rw [List.length_map]; exact hj
    have hb : isSub b.short_title ((st.getD j default).title) = false :=
      hno b (List.mem_cons_self b bs)
    have hupd : updAsin b (st.getD j default) = st.getD j default := by
      unfold updAsin
      rw [hb]
      simp
    rw [ih hj2 (by
      intro b2 hb2
      rw [getD_map_updAsin b st j hj, hupd]
      exact hno b2 (List.mem_cons_of_mem b hb2))]
    rw [getD_map_updAsin b st j hj, hupd]

theorem matchLoop_final_asin {bs : List PlacedBook} {st : List CatalogItem} {j : Nat}
    (hj : j < st.length)
    (hex : ∃ b ∈ bs, isSub b.short_title ((st.getD j default).title) = true) :
    ∃ b ∈ bs, isSub b.short_title ((st.getD j default).title) = true ∧
      ((matchLoop bs st).1.getD j default).asin = b.asin := by
  induction bs generalizing st with
  | nil =>
    obtain ⟨b, hb, _⟩ := hex
    cases hb
  | cons b bs ih =>
    rw [matchLoop]
    have hj2 : j < (st.map (updAsin b)).length := by
      rw [List.length_map]; exact hj
    by_cases h2 : ∃ b2 ∈ bs, isSub b2.short_title ((st.getD j default).title) = true
    · obtain ⟨b3, hb3, hsub3, hasin3⟩ := ih hj2 (by
        obtain ⟨b2, hb2, hsub2⟩ := h2
        refine ⟨b2, hb2, ?_⟩
        rw [getD_map_updAsin b st j hj, updAsin_title]
        exact hsub2)
      rw [getD_map_updAsin b st j hj, updAsin_title] at hsub3
      exact ⟨b3, List.mem_cons_of_mem b hb3, hsub3, hasin3⟩
    · have hbmatch : isSub b.short_title ((st.getD j default).title) = true := by
        obtain ⟨b0, hb0, hsub0⟩ := hex
        rcases List.mem_cons.mp hb0 with rfl | hb0b
        · exact hsub0
        · exact absurd ⟨b0, hb0b, hsub0⟩ h2
      have hnone : ∀ b2 ∈ bs,
          isSub b2.short_title (((st.map (updAsin b)).getD j default).title) = false := by
        intro b2 hb2
        rw [getD_map_updAsin b st j hj, updAsin_title]
        cases hx : isSub b2.short_title ((st.getD j default).title) with
        | false => rfl
        | true => exact absurd ⟨b2, hb2, hx⟩ h2
      rw [matchLoop_nomatch hj2 hnone]
      rw [getD_map_updAsin b st j hj]
      refine ⟨b, List.mem_cons_self b bs, hbmatch, ?_⟩
      unfold updAsin
      rw [hbmatch]
      rfl

/--
**C10.**  In `get_audio_bookshelf_recent_books`, a non-empty placed-book
list takes precedence over the days-ago threshold (the result is the same
as with `days_ago = 0`); with an empty book list and a non-positive
`days_ago` the result is empty; and with a non-empty book list every
returned item's title contains some placed book's short title and carries
that book's injected `asin`.
-/
theorem C10_recent_books :
    (∀ (nowOrd : Int) (items : List CatalogItem) (d : Int) (books : List PlacedBook),
      books ≠ [] →
      get_audio_bookshelf_recent_books nowOrd items d books =
        get_audio_bookshelf_recent_books nowOrd items 0 books) ∧
    (∀ (nowOrd : Int) (items : List CatalogItem) (d : Int),
      d ≤ 0 → get_audio_bookshelf_recent_books nowOrd items d [] = []) ∧
    (∀ (nowOrd : Int) (items : List CatalogItem) (d : Int)
      (books : List PlacedBook) (x : CatalogItem),
      books ≠ [] → x ∈ get_audio_bookshelf_recent_books nowOrd items d books →
      ∃ b ∈ books, isSub b.short_title x.title = true ∧ x.asin = b.asin) := by
  have heff : ∀ (books : List PlacedBook) (d : Int), books ≠ [] →
      effectiveDaysAgo books d = 0 := by
    intro books d hne
    unfold effectiveDaysAgo
    rw [if_pos hne]
  refine ⟨?_, ?_, ?_⟩
  · intro nowOrd items d books hne
    unfold get_audio_bookshelf_recent_books
    rw [heff books d hne, heff books 0 hne]
  · intro nowOrd items d hd
    unfold get_audio_bookshelf_recent_books
    have h1 : effectiveDaysAgo [] d = d := by
      unfold effectiveDaysAgo
      rw [if_neg (fun h => h rfl)]
    rw [h1, if_neg (by omega)]
    rfl
  · intro nowOrd items d books x hne hx
    unfold get_audio_bookshelf_recent_books at hx
    rw [heff books d hne, if_neg (by omega)] at hx
    obtain ⟨j, hj, hxeq⟩ := List.mem_map.mp hx
    obtain ⟨hlt, hexists⟩ := matchLoop_idx_mem hj
    obtain ⟨b, hb, hsub, hasin⟩ := matchLoop_final_asin hlt hexists
    refine ⟨b, hb, ?_, ?_⟩
    · rw [← hxeq, matchLoop_title]
      exact hsub
    · rw [← hxeq]
      exact hasin

/-- A concrete placed-book list for the C10 witness. -/
def books0 : List PlacedBook :=
  [{ short_title := "Daemon".toList, asin := "a1".toList }]

/-- A concrete catalog for the C10 witness. -/
def items0 : List CatalogItem :=
  [{ addedAt := 0, title := "Daemon Unabridged".toList, asin := "x".toList }]

/-- The item returned for `books0`/`items0` (asin injected). -/
def x0 : CatalogItem :=
  { addedAt := 0, title := "Daemon Unabridged".toList, asin := "a1".toList }

/-- Witness for C10 at a concrete catalog and book list. -/
theorem C10_recent_books_witness :
    books0 ≠ [] ∧ x0 ∈ get_audio_bookshelf_recent_books 0 items0 5 books0 ∧
    ∃ b ∈ books0, isSub b.short_title x0.title = true ∧ x0.asin = b.asin :=
  ⟨by decide, by decide,
    C10_recent_books.2.2 0 items0 5 books0 x0 (by decide) (by decide)⟩

/-! ## Manifest normalization and the placement engine
(`openaudible_to_ab.py`)

A raw manifest record is a JSON object; the model carries the keys of both
schemas as string fields (absent keys are modelled as present-and-empty,
which Python's truthiness makes equivalent for the fields the code
branches on).  The filesystem is an explicit association of file paths to
byte sizes plus a set of directory paths; `none` results model raised
exceptions. -/

/-- String constants used by the engine. -/
def sOpenAudible : List Char := "OpenAudible".toList

structure RawBook where
  author : List Char := []
  asin : List Char := []
  summary : List Char := []
  filename : List Char := []
  purchase_date : List Char := []
  series_name : List Char := []
  title_short : List Char := []
  title : List Char := []
  series_sequence : List Char := []
  AudibleProductId : List Char := []
  AuthorNames : List Char := []
  Description : List Char := []
  DateAdded : List Char := []
  SeriesNames : List Char := []
  SeriesOrder : List Char := []
  Subtitle : List Char := []
  Title : List Char := []
deriving DecidableEq, Inhabited

structure NormalizedBook where
  asin : List Char
  author : List Char
  description : List Char
  filename : List Char
  purchase_date : List Char
  series : List Char
  short_title : List Char
  title : List Char
  volumeNumber : List Char
  libation_book_folder : Option (List Char)
deriving DecidableEq, Inhabited

/-- Python `str.split()` (split on whitespace runs, drop empty words). -/
def pySplitWs (l : List Char) : List (List Char) :=
  (l.splitOnP pyIsSpace).filter (fun w => !w.isEmpty)

/-- `process_open_audible_book_json` (`openaudible_to_ab.py` lines
159-180): author is the sanitized, stripped part before the first comma;
all other fields pass through. -/
def process_open_audible_book_json (b : RawBook) : NormalizedBook :=
  { asin := b.asin
    author := sanitize_name (pyStrip (b.author.takeWhile (fun c => c != ',')))
    description := b.summary
    filename := b.filename
    purchase_date := b.purchase_date
    series := b.series_name
    short_title := b.title_short
    title := b.title
    volumeNumber := b.series_sequence
    libation_book_folder := none }

/-- `process_libation_book_json` (`openaudible_to_ab.py` lines 183-241).
`none` models a raised exception (IndexError on a whitespace-only
`SeriesOrder`, or the inline date handling's `ValueError`). -/
def process_libation_book_json (b : RawBook) : Option NormalizedBook :=
  let full_title :=
    if b.Subtitle ≠ [] then b.Title ++ " - ".toList ++ b.Subtitle else b.Title
  let seqRes : Option (List Char) :=
    if b.SeriesOrder ≠ [] then
      match pySplitWs b.SeriesOrder with
      | [] => none
      | w :: _ => some w
    else some []
  match seqRes with
  | none => none
  | some series_sequence =>
    let fname :=
      if b.Subtitle ≠ [] then
        b.Title ++ ": ".toList ++ b.Subtitle ++ " [".toList ++ b.AudibleProductId ++ "]".toList
      else b.Title ++ " [".toList ++ b.AudibleProductId ++ "]".toList
    let book_folder := b.Title ++ " [".toList ++ b.AudibleProductId ++ "]".toList
    match libationInlineDate b.DateAdded with
    | none => none
    | some formatted_purchase_date =>
      some { asin := b.AudibleProductId
             author := b.AuthorNames
             description := b.Description
             filename := fname
             purchase_date := formatted_purchase_date
             series := b.SeriesNames
             short_title := b.Title
             title := full_title
             volumeNumber := series_sequence
             libation_book_folder := some book_folder }

/-! ### Filesystem model -/

structure FS where
  files : List (List Char × Nat)
  dirs : List (List Char)
deriving DecidableEq, Inhabited

/-- `os.path.getsize`; `none` models the raised `OSError`. -/
def getsize (fs : FS) (p : List Char) : Option Nat :=
  (fs.files.find? (fun e => e.1 = p)).map (fun e => e.2)

def fileExists (fs : FS) (p : List Char) : Bool := (getsize fs p).isSome

def dirExists (fs : FS) (p : List Char) : Bool := fs.dirs.contains p

/-- `os.path.exists`. -/
def pathExists (fs : FS) (p : List Char) : Bool := fileExists fs p || dirExists fs p

/-- `os.path.join` for the separator-free segment names produced here
(equals `a + os.sep + b`). -/
def pathJoin (a b : List Char) : List Char := a ++ '/' :: b

def basename (p : List Char) : List Char :=
  (p.reverse.takeWhile (fun c => c != '/')).reverse

def removeFile (fs : FS) (p : List Char) : FS :=
  { fs with files := fs.files.filter (fun e => e.1 ≠ p) }

/-- `shutil.move(src, dstDir)`: when the destination is a directory the
real target is `dstDir/basename(src)` and an existing file there raises
`shutil.Error`; otherwise `os.rename`.  `none` models a raised error. -/
def shutilMove (fs : FS) (src dstDir : List Char) : Option FS :=
  match getsize fs src with
  | none => none
  | some sz =>
    if dirExists fs dstDir then
      let real := pathJoin dstDir (basename src)
      if pathExists fs real then none
      else some { files := (real, sz) :: (removeFile fs src).files, dirs := fs.dirs }
    else
      some { files := (dstDir, sz) :: (removeFile fs src).files, dirs := fs.dirs }

/-- `shutil.rmtree`; `none` models the raised error when the path is not
an existing directory. -/
def rmtree (fs : FS) (p : List Char) : Option FS :=
  if dirExists fs p then
    some { files := fs.files.filter (fun e => !((p ++ ['/']).isPrefixOf e.1)),
           dirs := fs.dirs.filter (fun d => !(d == p) && !((p ++ ['/']).isPrefixOf d)) }
  else none

/-- The nested path `root/author[/series]/title`. -/
def joinDirs (root a s t : List Char) : List Char :=
  let p1 := pathJoin root a
  let p2 := if s ≠ [] then pathJoin p1 s else p1
  pathJoin p2 t

/-- `make_directory_structure` (`openaudible_to_ab.py` lines 244-269):
build the nested path, create it when missing, return it. -/
def make_directory_structure (author_dir series_dir book_title_dir destination_dir : List Char)
    (fs : FS) : List Char × FS :=
  let p := joinDirs destination_dir author_dir series_dir book_title_dir
  if pathExists fs p then (p, fs) else (p, { fs with dirs := p :: fs.dirs })

/-! ### The placement engine -/

structure EngineCfg where
  audio_file_extension : List Char
  destination_dir : List Char
  download_program : List Char
  libation_folder_cleanup : Bool
  purchased_how_long_ago : Nat
  source_dir : List Char
  nowDateOrd : Int
deriving DecidableEq

/-- `(datetime.now(timezone.utc) - timedelta(days=N)).date()` as an
ordinal: subtracting whole days shifts the date by exactly that many
days. -/
def targetOrd (cfg : EngineCfg) : Int := cfg.nowDateOrd - cfg.purchased_how_long_ago

/-- Cumulative days before each month in a non-leap year. -/
def cumDays : Nat → Nat
  | 1 => 0 | 2 => 31 | 3 => 59 | 4 => 90 | 5 => 120 | 6 => 151
  | 7 => 181 | 8 => 212 | 9 => 243 | 10 => 273 | 11 => 304 | 12 => 334
  | _ => 0

/-- `date(y, m, d).toordinal()` (proleptic Gregorian). -/
def toOrd (y m d : Nat) : Nat :=
  365 * (y - 1) + (y - 1) / 4 - (y - 1) / 100 + (y - 1) / 400 +
    cumDays m + (if 2 < m && isLeap y then 1 else 0) + d

/-- Lines 299-304: select the normalizer variant by the download-program
discriminator.  `none` models a normalization exception. -/
def normalizeFor (cfg : EngineCfg) (b : RawBook) : Option NormalizedBook :=
  if cfg.download_program = sOpenAudible then some (process_open_audible_book_json b)
  else process_libation_book_json b

def author_dir (bd : NormalizedBook) : List Char := sanitize_name bd.author

def series_dir (bd : NormalizedBook) : List Char :=
  if bd.series ≠ [] then sanitize_name bd.series else []

def title_dir (bd : NormalizedBook) : List Char := sanitize_name bd.title

def audioFileName (cfg : EngineCfg) (bd : NormalizedBook) : List Char :=
  bd.filename ++ cfg.audio_file_extension

/-- Lines 321-326: the candidate source file path (`source_dir` for tool A;
`source_dir + os.sep + libation_book_folder` for tool B). -/
def dlPath (cfg : EngineCfg) (bd : NormalizedBook) : List Char :=
  if cfg.download_program = sOpenAudible then
    pathJoin cfg.source_dir (audioFileName cfg bd)
  else
    pathJoin (cfg.source_dir ++ '/' :: (bd.libation_book_folder.getD []))
      (audioFileName cfg bd)

def destDirPath (cfg : EngineCfg) (bd : NormalizedBook) : List Char :=
  joinDirs cfg.destination_dir (author_dir bd) (series_dir bd) (title_dir bd)

def targetPath (cfg : EngineCfg) (bd : NormalizedBook) : List Char :=
  pathJoin (destDirPath cfg bd) (audioFileName cfg bd)

/-- Lines 355-356 (after the move): optional removal of the tool-B source
subfolder.  With tool A `libation_source_dir` is unbound, a `NameError`
caught by the handler; the record's title was already appended. -/
def cleanupStep (cfg : EngineCfg) (fs2 : FS) (bd : NormalizedBook) :
    FS × List (List Char) :=
  if cfg.libation_folder_cleanup then
    match bd.libation_book_folder with
    | none => (fs2, [bd.short_title])
    | some f =>
      match rmtree fs2 (cfg.source_dir ++ '/' :: f) with
      | none => (fs2, [bd.short_title])
      | some fs3 => (fs3, [bd.short_title])
  else (fs2, [bd.short_title])

/-- Lines 352-360: the record's `short_title` is appended FIRST, then the
move and optional cleanup run; an exception in either is caught by the
handler, leaving the already-appended title in the result. -/
def afterAppend (cfg : EngineCfg) (fs1 : FS) (bd : NormalizedBook) :
    FS × List (List Char) :=
  if pathExists fs1 (dlPath cfg bd) then
    match shutilMove fs1 (dlPath cfg bd) (destDirPath cfg bd) with
    | none => (fs1, [bd.short_title])
    | some fs2 => cleanupStep cfg fs2 bd
  else cleanupStep cfg fs1 bd

/-- Lines 315-351: path resolution, source-existence check, directory
creation, collision policy. -/
def afterRecency (cfg : EngineCfg) (fs : FS) (bd : NormalizedBook) :
    FS × List (List Char) :=
  if !(pathExists fs (dlPath cfg bd)) then (fs, [])
  else
    let mk := make_directory_structure (author_dir bd) (series_dir bd) (title_dir bd)
      cfg.destination_dir fs
    let fs1 := mk.2
    let target := pathJoin mk.1 (audioFileName cfg bd)
    if pathExists fs1 target then
      match getsize fs1 target, getsize fs1 (dlPath cfg bd) with
      | some existing_file_size, some downloaded_file_size =>
        if downloaded_file_size < existing_file_size then (fs1, [])
        else afterAppend cfg fs1 bd
      | _, _ => (fs1, [])
    else afterAppend cfg fs1 bd

/-- Lines 310-314: parse the normalized purchase date and apply the
recency filter (`strptime(purchase_date, "%Y-%m-%d").date() < target_date`
means skip). -/
def afterNormalize (cfg : EngineCfg) (fs : FS) (bd : NormalizedBook) :
    FS × List (List Char) :=
  match strptimeD bd.purchase_date with
  | none => (fs, [])
  | some ymd =>
    if (toOrd ymd.1 ymd.2.1 ymd.2.2 : Int) < targetOrd cfg then (fs, [])
    else afterRecency cfg fs bd

/-- One iteration of the `for book in books` loop of
`move_audio_book_files` (lines 297-369), the whole body being inside
`try/except`: the second component is the (possibly empty) contribution to
`books_to_process_in_audio_bookself`. -/
def processBook (cfg : EngineCfg) (fs : FS) (b : RawBook) : FS × List (List Char) :=
  match normalizeFor cfg b with
  | none => (fs, [])
  | some bd => afterNormalize cfg fs bd

/-- `move_audio_book_files` (lines 272-371) over an already-decoded
manifest list (a fatally unreadable manifest exits before this loop). -/
def move_audio_book_files (cfg : EngineCfg) : FS → List RawBook → FS × List (List Char)
  | fs, [] => (fs, [])
  | fs, b :: rest =>
    let r1 := processBook cfg fs b
    let r2 := move_audio_book_files cfg r1.1 rest
    (r2.1, r1.2 ++ r2.2)

/-- Whatever happens during cleanup, the already-appended title remains
the record's contribution. -/
theorem cleanupStep_snd (cfg : EngineCfg) (fs2 : FS) (bd : NormalizedBook) :
    (cleanupStep cfg fs2 bd).2 = [bd.short_title] := by
  unfold cleanupStep
  split
  · split
    · rfl
    · split <;> rfl
  · rfl

/-- Whatever happens during the move and cleanup, the already-appended
title remains the record's contribution. -/
theorem afterAppend_snd (cfg : EngineCfg) (fs1 : FS) (bd : NormalizedBook) :
    (afterAppend cfg fs1 bd).2 = [bd.short_title] := by
  unfold afterAppend
  split
  · split
    · rfl
    · exact cleanupStep_snd cfg _ bd
  · exact cleanupStep_snd cfg fs1 bd

/-! ### Claim C2 — the zero-threshold behavior -/

/-- Engine configuration with a zero days-since-purchase threshold. -/
def c2Cfg : EngineCfg :=
  { audio_file_extension := ".m4b".toList, destination_dir := "/dst".toList,
    download_program := "OpenAudible".toList, libation_folder_cleanup := false,
    purchased_how_long_ago := 0, source_dir := "/src".toList,
    nowDateOrd := toOrd 2026 10 12 }

/-- A record purchased one day before "now", its audio file present. -/
def c2Book : RawBook :=
  { author := "A".toList, asin := "AS1".toList, filename := "bk".toList,
    purchase_date := "2026-10-11".toList, title_short := "T".toList,
    title := "T".toList }

/-- Normalized form of `c2Book`. -/
def c2Nb : NormalizedBook :=
  { asin := "AS1".toList, author := "A".toList, description := [],
    filename := "bk".toList, purchase_date := "2026-10-11".toList,
    series := [], short_title := "T".toList, title := "T".toList,
    volumeNumber := [], libation_book_folder := none }

def c2Fs : FS :=
  { files := [("/src/bk.m4b".toList, 5)],
    dirs := ["/src".toList, "/dst".toList] }

/--
**C2 — counterexample.** With a zero threshold no large lookback is
substituted: the threshold date is "now" itself, and a record purchased
one day earlier — whose source file exists — is skipped by the
purchase-date check (the run returns nothing and moves nothing).
-/
theorem C2_cex :
    c2Cfg.purchased_how_long_ago = 0 ∧
    pathExists c2Fs ("/src/bk.m4b".toList) = true ∧
    move_audio_book_files c2Cfg c2Fs [c2Book] = (c2Fs, []) := by
  refine ⟨rfl, by decide, by decide⟩

/--
**C2 — amended.** With a zero threshold the engine's threshold date is the
current UTC date itself (no large effective lookback is substituted), and
any record whose normalized purchase date parses to a date strictly before
the current date is skipped by step 3: nothing is appended and the
filesystem is untouched.
-/
theorem C2_zero_threshold (cfg : EngineCfg) (fs : FS) (b : RawBook)
    (bd : NormalizedBook) (y m d : Nat)
    (h0 : cfg.purchased_how_long_ago = 0)
    (hn : normalizeFor cfg b = some bd)
    (hp : strptimeD bd.purchase_date = some (y, m, d))
    (hold : (toOrd y m d : Int) < cfg.nowDateOrd) :
    targetOrd cfg = cfg.nowDateOrd ∧ processBook cfg fs b = (fs, []) := by
  have ht : targetOrd cfg = cfg.nowDateOrd := by
    unfold targetOrd
    rw [h0]
    simp
  refine ⟨ht, ?_⟩
  unfold processBook
  rw [hn]
  show afterNormalize cfg fs bd = (fs, [])
  unfold afterNormalize
  rw [hp]
  show (if (toOrd y m d : Int) < targetOrd cfg then (fs, ([] : List (List Char)))
    else afterRecency cfg fs bd) = (fs, [])
  rw [if_pos (by rw [ht]; exact hold)]

/-- Witness for C2 (amended) at the concrete zero-threshold run. -/
theorem C2_zero_threshold_witness :
    (c2Cfg.purchased_how_long_ago = 0 ∧ normalizeFor c2Cfg c2Book = some c2Nb ∧
     strptimeD c2Nb.purchase_date = some (2026, 10, 11) ∧
     (toOrd 2026 10 11 : Int) < c2Cfg.nowDateOrd) ∧
    targetOrd c2Cfg = c2Cfg.nowDateOrd ∧ processBook c2Cfg c2Fs c2Book = (c2Fs, []) :=
  ⟨⟨rfl, by decide, by decide, by decide⟩,
    C2_zero_threshold c2Cfg c2Fs c2Book c2Nb 2026 10 11 rfl (by decide) (by decide)
      (by decide)⟩

/-! ### Claim C3 — the collision policy -/

def c3Cfg : EngineCfg :=
  { audio_file_extension := ".m4b".toList, destination_dir := "/dst".toList,
    download_program := "OpenAudible".toList, libation_folder_cleanup := false,
    purchased_how_long_ago := 7, source_dir := "/src".toList,
    nowDateOrd := toOrd 2026 10 12 }

def c3Book : RawBook :=
  { author := "A".toList, asin := "AS1".toList, filename := "bk".toList,
    purchase_date := "2026-10-11".toList, title_short := "T".toList,
    title := "T".toList }

/-- Source and destination files have EQUAL sizes. -/
def c3Fs : FS :=
  { files := [("/src/bk.m4b".toList, 5), ("/dst/A/T/bk.m4b".toList, 5)],
    dirs := ["/src".toList, "/dst".toList, "/dst/A/T".toList] }

/--
**C3 — counterexample.** When the source file's size EQUALS the existing
destination file's size the record is NOT skipped: the code takes the
replace branch (the condition at line 339 is a strict `<`), appends the
record, and only then fails inside `shutil.move`.  The claim's "skip when
not larger" predicts an empty result here.
-/
theorem C3_cex :
    getsize c3Fs ("/src/bk.m4b".toList) = some 5 ∧
    getsize c3Fs ("/dst/A/T/bk.m4b".toList) = some 5 ∧
    (move_audio_book_files c3Cfg c3Fs [c3Book]).2 = ["T".toList] := by
  refine ⟨by decide, by decide, by decide⟩

theorem mkdir_noop {fs : FS} {a s t root : List Char}
    (h : pathExists fs (joinDirs root a s t) = true) :
    make_directory_structure a s t root fs = (joinDirs root a s t, fs) := by
  unfold make_directory_structure
  rw [if_pos h]

/--
**C3 — amended.** Collision policy of the code: the record is skipped if
and only if the source file is STRICTLY smaller than the existing
destination file; when the source is equal or larger the replace branch is
taken and the record is appended.
-/
theorem C3_collision (cfg : EngineCfg) (fs : FS) (b : RawBook)
    (bd : NormalizedBook) (y m d : Nat) (existing downloaded : Nat)
    (hn : normalizeFor cfg b = some bd)
    (hp : strptimeD bd.purchase_date = some (y, m, d))
    (hrec : ¬ ((toOrd y m d : Int) < targetOrd cfg))
    (hdl : pathExists fs (dlPath cfg bd) = true)
    (hmk : pathExists fs (destDirPath cfg bd) = true)
    (htgt : pathExists fs (targetPath cfg bd) = true)
    (hexs : getsize fs (targetPath cfg bd) = some existing)
    (hdls : getsize fs (dlPath cfg bd) = some downloaded) :
    (downloaded < existing → processBook cfg fs b = (fs, [])) ∧
    (existing ≤ downloaded → (processBook cfg fs b).2 = [bd.short_title]) := by
  have hbody : processBook cfg fs b =
      (if downloaded < existing then (fs, []) else afterAppend cfg fs bd) := by
    unfold processBook
    rw [hn]
    show afterNormalize cfg fs bd = _
    unfold afterNormalize
    rw [hp]
    show (if (toOrd y m d : Int) < targetOrd cfg then (fs, ([] : List (List Char)))
      else afterRecency cfg fs bd) = _
    rw [if_neg hrec]
    unfold afterRecency
    rw [hdl]
    show (if !true then (fs, ([] : List (List Char))) else _) = _
    simp only [Bool.not_true, Bool.false_eq_true, if_false]
    rw [mkdir_noop hmk]
    show (if pathExists fs (targetPath cfg bd) then _ else _) = _
    rw [htgt]
    show (match getsize fs (targetPath cfg bd), getsize fs (dlPath cfg bd) with
      | some existing_file_size, some downloaded_file_size =>
        if downloaded_file_size < existing_file_size then (fs, ([] : List (List Char)))
        else afterAppend cfg fs bd
      | _, _ => (fs, [])) = _
    rw [hexs, hdls]
  constructor
  · intro hlt
    rw [hbody, if_pos hlt]
  · intro hge
    rw [hbody, if_neg (by omega)]
    exact afterAppend_snd cfg fs bd

/-- Witness for C3 (amended) at the equal-size collision: the replace
branch is taken and the record is appended. -/
theorem C3_collision_witness :
    (normalizeFor c3Cfg c3Book = some c2Nb ∧
     strptimeD c2Nb.purchase_date = some (2026, 10, 11) ∧
     ¬ ((toOrd 2026 10 11 : Int) < targetOrd c3Cfg) ∧
     pathExists c3Fs (dlPath c3Cfg c2Nb) = true ∧
     pathExists c3Fs (destDirPath c3Cfg c2Nb) = true ∧
     pathExists c3Fs (targetPath c3Cfg c2Nb) = true ∧
     getsize c3Fs (targetPath c3Cfg c2Nb) = some 5 ∧
     getsize c3Fs (dlPath c3Cfg c2Nb) = some 5 ∧ (5 : Nat) ≤ 5) ∧
    (processBook c3Cfg c3Fs c3Book).2 = [c2Nb.short_title] :=
  ⟨⟨by decide, by decide, by decide, by decide, by decide, by decide, by decide,
    by decide, by decide⟩,
   (C3_collision c3Cfg c3Fs c3Book c2Nb 2026 10 11 5 5 (by decide) (by decide)
      (by decide) (by decide) (by decide) (by decide) (by decide) (by decide)).2
     (by decide)⟩

/-! ### Claim C4 — the returned list -/

/-- Source file strictly larger than the existing destination file. -/
def c4Fs : FS :=
  { files := [("/src/bk.m4b".toList, 9), ("/dst/A/T/bk.m4b".toList, 5)],
    dirs := ["/src".toList, "/dst".toList, "/dst/A/T".toList] }

/--
**C4 — counterexample.** A record whose filesystem transfer does NOT
complete still appears in the returned list: with a strictly larger source
the replace branch is taken, the record's `short_title` string (not a
NormalizedBook record) is appended, then `shutil.move` raises because the
destination file exists — the exception is caught, yet the title stays in
the returned list while both files are left untouched.
-/
theorem C4_cex :
    (move_audio_book_files c3Cfg c4Fs [c3Book]).2 = ["T".toList] ∧
    getsize (move_audio_book_files c3Cfg c4Fs [c3Book]).1
      ("/dst/A/T/bk.m4b".toList) = some 5 ∧
    getsize (move_audio_book_files c3Cfg c4Fs [c3Book]).1
      ("/src/bk.m4b".toList) = some 9 := by
  refine ⟨by decide, by decide, by decide⟩

/-- The conditions under which a record reaches the append at line 352
(passes normalization, date parse, recency, source existence, and the
collision policy) — independent of whether the subsequent move or cleanup
succeeds. -/
def reachesRecency (cfg : EngineCfg) (fs : FS) (bd : NormalizedBook) : Bool :=
  if !(pathExists fs (dlPath cfg bd)) then false
  else
    let mk := make_directory_structure (author_dir bd) (series_dir bd) (title_dir bd)
      cfg.destination_dir fs
    let fs1 := mk.2
    let target := pathJoin mk.1 (audioFileName cfg bd)
    if pathExists fs1 target then
      match getsize fs1 target, getsize fs1 (dlPath cfg bd) with
      | some existing_file_size, some downloaded_file_size =>
        !(downloaded_file_size < existing_file_size)
      | _, _ => false
    else true

def reachesNorm (cfg : EngineCfg) (fs : FS) (bd : NormalizedBook) : Bool :=
  match strptimeD bd.purchase_date with
  | none => false
  | some ymd =>
    if (toOrd ymd.1 ymd.2.1 ymd.2.2 : Int) < targetOrd cfg then false
    else reachesRecency cfg fs bd

def reachesPlacement (cfg : EngineCfg) (fs : FS) (b : RawBook) : Bool :=
  match normalizeFor cfg b with
  | none => false
  | some bd => reachesNorm cfg fs bd

theorem afterRecency_snd (cfg : EngineCfg) (fs : FS) (bd : NormalizedBook) :
    (afterRecency cfg fs bd).2 =
      (if reachesRecency cfg fs bd then [bd.short_title] else []) := by
  unfold afterRecency reachesRecency
  by_cases hdl : pathExists fs (dlPath cfg bd)
  · simp only [hdl, Bool.not_true, Bool.false_eq_true, if_false]
    by_cases htgt : pathExists
        (make_directory_structure (author_dir bd) (series_dir bd) (title_dir bd)
          cfg.destination_dir fs).2
        (pathJoin (make_directory_structure (author_dir bd) (series_dir bd) (title_dir bd)
          cfg.destination_dir fs).1 (audioFileName cfg bd))
    · simp only [htgt, if_true]
      cases hs1 : getsize
          (make_directory_structure (author_dir bd) (series_dir bd) (title_dir bd)
            cfg.destination_dir fs).2
          (pathJoin (make_directory_structure (author_dir bd) (series_dir bd) (title_dir bd)
            cfg.destination_dir fs).1 (audioFileName cfg bd)) with
      | none =>
        cases hs2 : getsize
            (make_directory_structure (author_dir bd) (series_dir bd) (title_dir bd)
              cfg.destination_dir fs).2 (dlPath cfg bd) <;> simp [hs1, hs2]
      | some existing =>
        cases hs2 : getsize
            (make_directory_structure (author_dir bd) (series_dir bd) (title_dir bd)
              cfg.destination_dir fs).2 (dlPath cfg bd) with
        | none => simp [hs1, hs2]
        | some dl =>
          simp only [hs1, hs2]
          by_cases hlt : dl < existing
          · simp [hlt]
          · simp [hlt, afterAppend_snd]
    · simp [htgt, afterAppend_snd]
  · simp [hdl]

theorem afterNormalize_snd (cfg : EngineCfg) (fs : FS) (bd : NormalizedBook) :
    (afterNormalize cfg fs bd).2 =
      (if reachesNorm cfg fs bd then [bd.short_title] else []) := by
  unfold afterNormalize reachesNorm
  cases hp : strptimeD bd.purchase_date with
  | none => rfl
  | some ymd =>
    by_cases hrec : (toOrd ymd.1 ymd.2.1 ymd.2.2 : Int) < targetOrd cfg
    · simp [hrec]
    · simp only [hrec, if_false]
      exact afterRecency_snd cfg fs bd

theorem processBook_some (cfg : EngineCfg) (fs : FS) (b : RawBook)
    (bd : NormalizedBook) (hn : normalizeFor cfg b = some bd) :
    processBook cfg fs b = afterNormalize cfg fs bd := by
  unfold processBook
  rw [hn]

theorem processBook_none (cfg : EngineCfg) (fs : FS) (b : RawBook)
    (hn : normalizeFor cfg b = none) : processBook cfg fs b = (fs, []) := by
  unfold processBook
  rw [hn]

/--
**C4 — amended.** `move_audio_book_files` returns the `short_title`
STRINGS (not NormalizedBook records) of the records that reach the append
at line 352 — i.e. that pass normalization, the recency filter, the
source-existence check and the collision policy — in manifest order; the
append happens before the transfer, so a record appears in the list even
when its move or cleanup subsequently raises.
-/
theorem C4_returned_list :
    (∀ (cfg : EngineCfg) (fs : FS) (b : RawBook),
      (processBook cfg fs b).2 ≠ [] ↔ reachesPlacement cfg fs b = true) ∧
    (∀ (cfg : EngineCfg) (fs : FS) (b : RawBook) (bd : NormalizedBook),
      normalizeFor cfg b = some bd →
      (processBook cfg fs b).2 =
        (if reachesPlacement cfg fs b then [bd.short_title] else [])) ∧
    (∀ (cfg : EngineCfg) (fs : FS) (b : RawBook) (rest : List RawBook),
      move_audio_book_files cfg fs (b :: rest) =
        ((move_audio_book_files cfg (processBook cfg fs b).1 rest).1,
         (processBook cfg fs b).2 ++
           (move_audio_book_files cfg (processBook cfg fs b).1 rest).2)) := by
  have h2 : ∀ (cfg : EngineCfg) (fs : FS) (b : RawBook) (bd : NormalizedBook),
      normalizeFor cfg b = some bd →
      (processBook cfg fs b).2 =
        (if reachesPlacement cfg fs b then [bd.short_title] else []) := by
    intro cfg fs b bd hn
    rw [processBook_some cfg fs b bd hn, afterNormalize_snd]
    unfold reachesPlacement
    rw [hn]
  refine ⟨?_, h2, ?_⟩
  · intro cfg fs b
    cases hn : normalizeFor cfg b with
    | none =>
      rw [processBook_none cfg fs b hn]
      unfold reachesPlacement
      rw [hn]
      simp
    | some bd =>
      rw [h2 cfg fs b bd hn]
      by_cases hr : reachesPlacement cfg fs b = true
      · simp [hr]
      · simp [hr]
  · intro cfg fs b rest
    rfl

/-- Witness for C4 (amended) at the concrete run of the counterexample:
the record passes the filters, so exactly its short title is returned. -/
theorem C4_returned_list_witness :
    normalizeFor c3Cfg c3Book = some c2Nb ∧
    (processBook c3Cfg c4Fs c3Book).2 =
      (if reachesPlacement c3Cfg c4Fs c3Book then [c2Nb.short_title] else []) :=
  ⟨by decide, C4_returned_list.2.1 c3Cfg c4Fs c3Book c2Nb (by decide)⟩

/-! ### Claim C5 — the tool-B source subfolder name -/

def disneyBook : RawBook :=
  { AudibleProductId := "DISNEY123".toList, AuthorNames := "Disney Author".toList,
    Title := "Disney Agent Stitch: The M-Files".toList,
    DateAdded := "2025-01-01T00:00:00+00:00".toList }

/-- What `process_libation_book_json` actually produces for
`disneyBook`. -/
def disneyNb : NormalizedBook :=
  { asin := "DISNEY123".toList, author := "Disney Author".toList, description := [],
    filename := "Disney Agent Stitch: The M-Files [DISNEY123]".toList,
    purchase_date := "2025-01-01".toList, series := [],
    short_title := "Disney Agent Stitch: The M-Files".toList,
    title := "Disney Agent Stitch: The M-Files".toList, volumeNumber := [],
    libation_book_folder := some ("Disney Agent Stitch: The M-Files [DISNEY123]".toList) }

def disneyCfg : EngineCfg :=
  { audio_file_extension := ".m4b".toList, destination_dir := "/dst".toList,
    download_program := "Libation".toList, libation_folder_cleanup := true,
    purchased_how_long_ago := 7, source_dir := "/src".toList,
    nowDateOrd := toOrd 2025 1 2 }

/-- The on-disk layout the source tool actually creates: the subfolder
name is truncated at the first colon. -/
def disneyFs : FS :=
  { files := [(String.toList
      "/src/Disney Agent Stitch [DISNEY123]/Disney Agent Stitch: The M-Files [DISNEY123].m4b", 5)],
    dirs := ["/src".toList, "/dst".toList,
      "/src/Disney Agent Stitch [DISNEY123]".toList] }

/--
**C5.** For a tool-B title containing a colon the code derives
`libation_book_folder` from the FULL title (`"<Title> [ProductId]"`, colon
included) — NOT from the portion before the first colon as the claim (and
the repository's own tests, which create the truncated folders Libation
really writes) require; `title` and `filename` do retain the colon.
Consequence: on the on-disk layout the tool creates, the engine looks for
the file under the untruncated folder, finds nothing, and silently skips
the record.
-/
theorem C5_folder_keeps_colon :
    process_libation_book_json disneyBook = some disneyNb ∧
    disneyNb.libation_book_folder =
      some ("Disney Agent Stitch: The M-Files [DISNEY123]".toList) ∧
    disneyNb.libation_book_folder ≠
      some ("Disney Agent Stitch [DISNEY123]".toList) ∧
    ':' ∈ disneyNb.title ∧ ':' ∈ disneyNb.filename ∧
    move_audio_book_files disneyCfg disneyFs [disneyBook] = (disneyFs, []) := by
  refine ⟨by decide, by decide, by decide, by decide, by decide, by decide⟩

/-! ### Claim C7 — per-record isolation -/

/-- A record whose normalization raises (before any state change or
append) contributes nothing and leaves the filesystem untouched. -/
theorem processBook_noop (cfg : EngineCfg) (fs : FS) (b : RawBook)
    (h : normalizeFor cfg b = none ∨
      ∃ bd, normalizeFor cfg b = some bd ∧ strptimeD bd.purchase_date = none) :
    processBook cfg fs b = (fs, []) := by
  rcases h with h | ⟨bd, hn, hp⟩
  · exact processBook_none cfg fs b h
  · rw [processBook_some cfg fs b bd hn]
    unfold afterNormalize
    rw [hp]

/--
**C7.** Per-record isolation of `move_audio_book_files`: the loop
processes every record regardless of the others' outcomes (the run over a
concatenation is the concatenation of the runs, with the state threaded
through — no record can abort the run, since every per-record exception is
caught by the handler), and a record whose normalization or date parsing
raises is a complete no-op: the surrounding records produce exactly the
run without it.
-/
theorem C7_per_record_isolation :
    (∀ (cfg : EngineCfg) (fs : FS) (l1 l2 : List RawBook),
      move_audio_book_files cfg fs (l1 ++ l2) =
        ((move_audio_book_files cfg (move_audio_book_files cfg fs l1).1 l2).1,
         (move_audio_book_files cfg fs l1).2 ++
           (move_audio_book_files cfg (move_audio_book_files cfg fs l1).1 l2).2)) ∧
    (∀ (cfg : EngineCfg) (fs : FS) (xs ys : List RawBook) (b : RawBook),
      (normalizeFor cfg b = none ∨
        ∃ bd, normalizeFor cfg b = some bd ∧ strptimeD bd.purchase_date = none) →
      move_audio_book_files cfg fs (xs ++ b :: ys) =
        move_audio_book_files cfg fs (xs ++ ys)) := by
  constructor
  · intro cfg fs l1 l2
    induction l1 generalizing fs with
    | nil => simp [move_audio_book_files]
    | cons a t ih =>
      show move_audio_book_files cfg fs (a :: (t ++ l2)) = _
      simp only [move_audio_book_files]
      rw [ih]
      simp [List.append_assoc]
  · intro cfg fs xs ys b h
    induction xs generalizing fs with
    | nil =>
      show move_audio_book_files cfg fs (b :: ys) = _
      simp only [move_audio_book_files, processBook_noop cfg fs b h]
      simp
    | cons a t ih =>
      show move_audio_book_files cfg fs (a :: (t ++ b :: ys)) = _
      simp only [move_audio_book_files]
      rw [ih]
      rfl

/-- A tool-B record whose `DateAdded` carries a Z suffix: the inline date
handling raises, so normalization fails. -/
def zBadBook : RawBook :=
  { AudibleProductId := "Z1".toList, AuthorNames := "ZA".toList,
    Title := "ZT".toList, DateAdded := "2025-06-01T10:00:00.123Z".toList }

/-- Witness for C7: a normalization-failing record inserted into a run
leaves the run's result unchanged. -/
theorem C7_per_record_isolation_witness :
    (normalizeFor disneyCfg zBadBook = none ∨
      ∃ bd, normalizeFor disneyCfg zBadBook = some bd ∧
        strptimeD bd.purchase_date = none) ∧
    move_audio_book_files disneyCfg disneyFs ([] ++ zBadBook :: [disneyBook]) =
      move_audio_book_files disneyCfg disneyFs ([] ++ [disneyBook]) :=
  ⟨Or.inl (by decide),
    C7_per_record_isolation.2 disneyCfg disneyFs [] [disneyBook] zBadBook
      (Or.inl (by decide))⟩

end OA2ABS
